import Mathlib

/-!
Verification of the numeric input widget in src/components/NumericInput.vue.

The widget logic is embedded shallowly: strings are `List Char`, JavaScript
numbers are exact rationals (`ℚ`) together with explicit NaN / Infinity
markers (`JSNum`), and every handler (onInput, onBlur) is a pure function
from its inputs and the current field state to an outcome record.

Modelling notes, referenced by the doc comments below:
* The regex class \d is exactly the digits 0-9, embedded as `Char.isDigit`.
* The display strings this widget puts in the field consist only of digits,
  '.' and ' ', so the regex \s (in parseDisplay and the caret code) is
  embedded as the test c = ' '; on the widget alphabet the two agree.
* Number(s) on the digit-and-dot strings arising here is embedded by
  `jsNumber`: the empty string parses to 0, a string with two or more dots
  or a lone '.' parses to NaN, any other digits-and-dots string parses to
  its exact rational value, except that values at or above the IEEE-754
  binary64 overflow threshold (2 ^ 1024 - 2 ^ 970) round to Infinity, so
  Number.isFinite is false for them.  Strings outside this alphabet do not
  reach Number in the widget and are mapped to NaN.
* A JavaScript index expression such as slice(0, cursorPos) clamps to the
  string length, embedded by `List.take` / `List.drop`; indexOf over the
  first '.' is embedded by `List.takeWhile` / `List.dropWhile` with the
  predicate that the character differs from '.'.
-/

namespace NumericInput

/-- Embeds the InputType union of the source, line 4: integer or decimal. -/
inductive InputType where
  | integer
  | decimal
deriving DecidableEq

/-- Embeds the LimitType union of the source, line 5. -/
inductive LimitType where
  | none
  | max
  | maxLength
deriving DecidableEq

/-- Embeds a JavaScript number: NaN, positive Infinity, or a finite value
(modelled as an exact rational).  Negative infinity never arises here. -/
inductive JSNum where
  | nan
  | inf
  | num (q : ℚ)
deriving DecidableEq

/-- Embeds the character class of digits and '.', the characters kept by the
sanitizer. -/
def isKeptChar (c : Char) : Bool := c.isDigit || c == '.'

/-- Embeds the decimal value of a digit string, most significant digit
first (the integer encoded by the digits as Number reads them). -/
def natOfDigits (l : List Char) : Nat :=
  l.foldl (fun acc c => acc * 10 + (c.toNat - '0'.toNat)) 0

/-- Embeds the smallest positive rational that Number rounds to Infinity:
the IEEE-754 binary64 overflow threshold 2 ^ 1024 - 2 ^ 970, written as
(2 ^ 54 - 1) * 2 ^ 970 with exponents kept small enough to evaluate. -/
def DOUBLE_OVERFLOW : ℚ :=
  (((2 ^ 54 - 1) * 2 ^ 242 * 2 ^ 242 * 2 ^ 242 * 2 ^ 244 : ℕ) : ℚ)

/-- Embeds the exact value of a decimal literal with integer digits ip and
fractional digits fp: the numerator over 10 ^ (length of fp). -/
def ratOfParts (ip fp : List Char) : ℚ :=
  mkRat ((natOfDigits ip * 10 ^ fp.length + natOfDigits fp : ℕ) : ℤ)
    (10 ^ fp.length)

/-- Embeds Number(s) for the strings arising in this widget (see the
modelling notes in the file header). -/
def jsNumber (s : List Char) : JSNum :=
  if s = [] then JSNum.num 0
  else if s.all isKeptChar then
    if 2 ≤ s.count '.' ∨ s = ['.'] then JSNum.nan
    else if ratOfParts (s.takeWhile (fun c => c != '.'))
        ((s.dropWhile (fun c => c != '.')).drop 1) < DOUBLE_OVERFLOW then
      JSNum.num (ratOfParts (s.takeWhile (fun c => c != '.'))
        ((s.dropWhile (fun c => c != '.')).drop 1))
    else JSNum.inf
  else JSNum.nan

/-- Embeds JavaScript strict equality between a number-or-null (the left
side, as stored in numericValue) and a number (the right side, as returned
by Number): null is never strictly equal to a number, and NaN is not
strictly equal to anything. -/
def numEqJS : Option ℚ → JSNum → Bool
  | some q, JSNum.num p => q == p
  | _, _ => false

/-- Embeds line 118 of the source: replace each ',' by '.', then strip every
character that is neither a digit nor '.'. -/
def normalizeRaw (raw : List Char) : List Char :=
  (raw.map (fun c => if c = ',' then '.' else c)).filter isKeptChar

/-- Embeds the cleaned string computed by sanitize (lines 117-130):
normalize, then for integer delete every '.'; for decimal, when a dot is
present, keep the part before the first '.', and truncate the remainder
(with its extra dots removed) to maxDecimals digits. -/
def sanitizeCleaned (ty : InputType) (maxDecimals : Nat) (raw : List Char) :
    List Char :=
  let cleaned := normalizeRaw raw
  match ty with
  | InputType.integer => cleaned.filter (fun c => c != '.')
  | InputType.decimal =>
    if cleaned.dropWhile (fun c => c != '.') = [] then cleaned
    else
      cleaned.takeWhile (fun c => c != '.') ++
        '.' :: ((((cleaned.dropWhile (fun c => c != '.')).drop 1).filter
          (fun c => c != '.')).take maxDecimals)

/-- Embeds lines 132-136 of the source: numericValue is Number(cleaned)
guarded by the tests that cleaned is neither empty nor a lone '.' and that
the parse is finite. -/
def numFromCleaned (cleaned : List Char) : Option ℚ :=
  if cleaned ≠ [] ∧ cleaned ≠ ['.'] then
    match jsNumber cleaned with
    | JSNum.num q => some q
    | _ => none
  else none

/-- Embeds the result record of sanitize (line 117). -/
structure SanResult where
  cleaned : List Char
  numericValue : Option ℚ
deriving DecidableEq

/-- Embeds sanitize (lines 117-139). -/
def sanitize (ty : InputType) (maxDecimals : Nat) (raw : List Char) :
    SanResult :=
  let cleaned := sanitizeCleaned ty maxDecimals raw
  { cleaned := cleaned, numericValue := numFromCleaned cleaned }

/-- Embeds the fractional part of a cleaned string: everything after the
first '.' (empty when there is no dot). -/
def fracPart (cleaned : List Char) : List Char :=
  (cleaned.dropWhile (fun c => c != '.')).drop 1

/-- Helper for `formatWithSpaces`, processing the elements after the first
one: an element whose suffix (itself included) has length divisible by 3
gets a space inserted in front of it. -/
def fwsAux : List Char → List Char
  | [] => []
  | c :: rest => (if (rest.length + 1) % 3 = 0 then [' ', c] else [c]) ++ fwsAux rest

/-- Embeds formatWithSpaces (lines 10-12), the grouping regex replacement,
on the digit-only strings it is applied to here.  On a digit string of
length n the regex inserts a space exactly before each position i with
0 < i < n and (n - i) divisible by 3; the head of the string never gets one
(position 0 is a word boundary, where \B fails). -/
def formatWithSpaces : List Char → List Char
  | [] => []
  | c :: rest => c :: fwsAux rest

/-- Embeds formatFromCleaned (lines 141-157): split the cleaned string at
its first '.', group the integer part with spaces, reattach the dot and the
fractional part (possibly empty, for a bare trailing dot) unchanged.  The
reattached tail '.' followed by decPart is exactly the dropWhile suffix. -/
def formatFromCleaned (cleaned : List Char) : List Char :=
  if cleaned = [] then []
  else if cleaned.dropWhile (fun c => c != '.') = [] then formatWithSpaces cleaned
  else
    formatWithSpaces (cleaned.takeWhile (fun c => c != '.')) ++
      cleaned.dropWhile (fun c => c != '.')

/-- Embeds removing the grouping spaces again (the whitespace-stripping
replacement, on display strings whose only whitespace is ' '). -/
def stripSpaces (l : List Char) : List Char := l.filter (fun c => c != ' ')

/-- Embeds getDigitCount (lines 113-115): the number of digit characters. -/
def getDigitCount (s : List Char) : Nat := (s.filter (fun c => c.isDigit)).length

/-- Embeds the configuration props used by the handlers (lines 14-29); max
and maxLength are none when the option is absent. -/
structure Props where
  type : InputType
  disabled : Bool
  max : Option ℚ
  maxLength : Option ℚ
  maxDecimals : Nat

/-- Embeds the computed limitType (lines 37-41); max wins over maxLength. -/
def limitType (p : Props) : LimitType :=
  match p.max, p.maxLength with
  | some _, _ => LimitType.max
  | none, some _ => LimitType.maxLength
  | none, none => LimitType.none

/-- Embeds checkLimit (lines 159-169). -/
def checkLimit (p : Props) (cleaned : List Char) (nv : Option ℚ) : Bool :=
  if limitType p = LimitType.max ∧ p.max.isSome then
    match nv, p.max with
    | some q, some m => decide (q > m)
    | _, _ => false
  else if limitType p = LimitType.maxLength ∧ p.maxLength.isSome then
    match p.maxLength with
    | some lim => decide ((getDigitCount cleaned : ℚ) > lim)
    | none => false
  else false

/-- Modelled from the spec, section 3: the LimitSpec sum — nothing, a max
value, or a max digit count, mutually exclusive. -/
inductive LimitSpec where
  | none
  | max (m : ℚ)
  | maxLength (n : ℚ)
deriving DecidableEq

/-- Modelled from the spec, section 3: the LimitSpec is selected by which
configuration option is present, with the max value taking precedence. -/
def limitSpecOf (p : Props) : LimitSpec :=
  match p.max, p.maxLength with
  | some m, _ => LimitSpec.max m
  | none, some n => LimitSpec.maxLength n
  | none, none => LimitSpec.none

/-- Modelled from the spec, section 4.3, following its words: the limit is
exceeded for a max value when the numeric value is non-null and strictly
greater than it; for a max length when the digit count of the cleaned
string (separators excluded) exceeds it; never when no limit is set. -/
def exceeds (cleaned : List Char) (nv : Option ℚ) : LimitSpec → Bool
  | LimitSpec.none => false
  | LimitSpec.max m =>
    match nv with
    | some q => decide (q > m)
    | none => false
  | LimitSpec.maxLength n => decide ((getDigitCount cleaned : ℚ) > n)

/-- Embeds parseDisplay (lines 77-82): strip whitespace, turn commas into
dots, treat the empty string and a lone '.' as null, otherwise Number
guarded by the finiteness test. -/
def parseDisplay (s : List Char) : Option ℚ :=
  let v := (s.filter (fun c => c != ' ')).map (fun c => if c = ',' then '.' else c)
  if v = [] ∨ v = ['.'] then none
  else
    match jsNumber v with
    | JSNum.num q => some q
    | _ => none

/-- Embeds the mutable field state the handlers read and write:
displayValue, hasError, isFocused (lines 49-50 and 84). -/
structure FieldState where
  displayValue : List Char
  hasError : Bool
  isFocused : Bool
deriving DecidableEq

/-- Embeds everything onBlur does: the updated state fields, and the emitted
update-model event if any (always absent for onBlur). -/
structure BlurOutcome where
  displayValue : List Char
  hasError : Bool
  isFocused : Bool
  emittedModel : Option (Option ℚ)
deriving DecidableEq

/-- Embeds onBlur (lines 101-111): clear focus and error, strip one trailing
'.' from the display when present; only the blur event is emitted, never an
update-model event. -/
def onBlur (st : FieldState) : BlurOutcome :=
  { isFocused := false
    hasError := false
    displayValue :=
      if st.displayValue.getLast? = some '.' then st.displayValue.dropLast
      else st.displayValue
    emittedModel := none }

/-- Embeds the caret scan loop of onInput (lines 199-206): walk the new
display while fewer than target non-space characters have been seen,
returning the final cursor position (the number of characters walked
past). -/
def scanCount : List Char → Nat → Nat
  | _, 0 => 0
  | [], Nat.succ _ => 0
  | c :: rest, Nat.succ t =>
    1 + scanCount rest (if c = ' ' then Nat.succ t else t)

/-- Embeds the caret repositioning of onInput (lines 196-206) as
implemented: the target count is cursorPos minus the number of spaces in
the first cursorPos characters of the old display, then the scan loop runs
on the new display. -/
def codeNewCursor (oldFormatted : List Char) (cursorPos : Nat)
    (newFormatted : List Char) : Nat :=
  scanCount newFormatted (cursorPos - (oldFormatted.take cursorPos).count ' ')

/-- Modelled from the spec, section 4.4, following its words: count the
non-space characters of the old display up to the old caret offset, then
run the same scan on the new display. -/
def specNewCursor (oldDisplay : List Char) (oldOffset : Nat)
    (newDisplay : List Char) : Nat :=
  scanCount newDisplay ((oldDisplay.take oldOffset).filter (fun c => c != ' ')).length

/-- Embeds everything onInput does: the updated state fields, the emitted
update-model event if any, the text left in the DOM field, and the caret
position set after the next tick if any. -/
structure InputOutcome where
  displayValue : List Char
  hasError : Bool
  emittedModel : Option (Option ℚ)
  fieldText : List Char
  cursor : Option Nat
deriving DecidableEq

/-- Embeds onInput (lines 171-210).  When disabled it returns immediately
(the field keeps whatever text the event carried).  On a limit violation
the edit is rolled back: hasError is set, the field text is restored to the
stored display, nothing is emitted.  Otherwise the display is reformatted,
the new value emitted, and the caret repositioned. -/
def onInput (p : Props) (st : FieldState) (inputValue : List Char)
    (cursorPos : Nat) : InputOutcome :=
  if p.disabled then
    { displayValue := st.displayValue, hasError := st.hasError,
      emittedModel := none, fieldText := inputValue, cursor := none }
  else
    let r := sanitize p.type p.maxDecimals inputValue
    if checkLimit p r.cleaned r.numericValue then
      { displayValue := st.displayValue, hasError := true,
        emittedModel := none, fieldText := st.displayValue, cursor := none }
    else
      { displayValue := formatFromCleaned r.cleaned, hasError := false,
        emittedModel := some r.numericValue,
        fieldText := formatFromCleaned r.cleaned,
        cursor := some (codeNewCursor st.displayValue cursorPos
          (formatFromCleaned r.cleaned)) }

/-! ### Basic character and list facts -/

lemma kept_ne_space {c : Char} (h : isKeptChar c = true) : (c != ' ') = true := by
  rcases eq_or_ne c ' ' with rfl | hne
  · simp [isKeptChar] at h
  · simp [hne]

lemma kept_ne_comma {c : Char} (h : isKeptChar c = true) : c ≠ ',' := by
  rintro rfl
  simp [isKeptChar] at h

lemma digit_kept {c : Char} (h : c.isDigit = true) : isKeptChar c = true := by
  simp [isKeptChar, h]

lemma digit_ne_dot {c : Char} (h : c.isDigit = true) : (c != '.') = true := by
  rcases eq_or_ne c '.' with rfl | hne
  · simp [Char.isDigit] at h
  · simp [hne]

lemma mem_normalizeRaw {raw : List Char} {c : Char} (h : c ∈ normalizeRaw raw) :
    isKeptChar c = true :=
  (List.mem_filter.mp h).2

lemma dropWhile_head_false {p : Char → Bool} :
    ∀ {l : List Char} {x : Char} {xs : List Char},
      l.dropWhile p = x :: xs → p x = false := by
  intro l
  induction l with
  | nil => intro x xs h; simp [List.dropWhile] at h
  | cons c rest ih =>
    intro x xs h
    rw [List.dropWhile_cons] at h
    by_cases hc : p c
    · rw [if_pos hc] at h
      exact ih h
    · rw [if_neg hc] at h
      injection h with h1 h2
      subst h1
      rw [Bool.not_eq_true] at hc
      exact hc

/-- Splitting a list at its first dot: either there is none, or the list is
a dot-free block, the dot, and a remainder. -/
lemma split_first_dot (l : List Char) :
    (l.dropWhile (fun c => c != '.') = [] ∧ '.' ∉ l) ∨
    ∃ b a, l = b ++ '.' :: a ∧ '.' ∉ b ∧
      l.takeWhile (fun c => c != '.') = b ∧
      l.dropWhile (fun c => c != '.') = '.' :: a := by
  cases h : l.dropWhile (fun c => c != '.') with
  | nil =>
    refine Or.inl ⟨rfl, fun hmem => ?_⟩
    have h2 := List.dropWhile_eq_nil_iff.mp h '.' hmem
    simp at h2
  | cons x xs =>
    have hx : x = '.' := by
      have := dropWhile_head_false h
      simpa using this
    subst hx
    refine Or.inr ⟨l.takeWhile (fun c => c != '.'), xs, ?_, ?_, rfl, rfl⟩
    · conv_lhs => rw [← List.takeWhile_append_dropWhile (fun c => c != '.') l]
      rw [h]
    · intro hmem
      have := List.mem_takeWhile_imp hmem
      simp at this

/-! ### Structure of the cleaned string -/

lemma sanitizeCleaned_integer (maxDec : Nat) (raw : List Char) :
    sanitizeCleaned InputType.integer maxDec raw =
      (normalizeRaw raw).filter (fun c => c != '.') := rfl

lemma sanitizeCleaned_decimal_no_dot {maxDec : Nat} {raw : List Char}
    (h : (normalizeRaw raw).dropWhile (fun c => c != '.') = []) :
    sanitizeCleaned InputType.decimal maxDec raw = normalizeRaw raw := by
  unfold sanitizeCleaned
  dsimp only
  rw [if_pos h]

lemma sanitizeCleaned_decimal_dot {maxDec : Nat} {raw : List Char} {b a : List Char}
    (htw : (normalizeRaw raw).takeWhile (fun c => c != '.') = b)
    (hdw : (normalizeRaw raw).dropWhile (fun c => c != '.') = '.' :: a) :
    sanitizeCleaned InputType.decimal maxDec raw =
      b ++ '.' :: ((a.filter (fun c => c != '.')).take maxDec) := by
  unfold sanitizeCleaned
  dsimp only
  rw [if_neg (by simp [hdw]), htw, hdw]
  simp

lemma cleaned_kept (ty : InputType) (maxDec : Nat) (raw : List Char) :
    ∀ c ∈ sanitizeCleaned ty maxDec raw, isKeptChar c = true := by
  intro c hc
  cases ty with
  | integer =>
    rw [sanitizeCleaned_integer] at hc
    exact mem_normalizeRaw (List.mem_filter.mp hc).1
  | decimal =>
    rcases split_first_dot (normalizeRaw raw) with ⟨hdw, _⟩ | ⟨b, a, _, _, htw, hdw⟩
    · rw [sanitizeCleaned_decimal_no_dot hdw] at hc
      exact mem_normalizeRaw hc
    · rw [sanitizeCleaned_decimal_dot htw hdw] at hc
      rcases List.mem_append.mp hc with hb | hrest
      · exact mem_normalizeRaw ((List.takeWhile_sublist _).subset (htw ▸ hb))
      · rcases List.mem_cons.mp hrest with rfl | ha
        · rfl
        · have ha2 : c ∈ a :=
            (List.mem_filter.mp ((List.take_sublist _ _).subset ha)).1
          have hmem : c ∈ '.' :: a := List.mem_cons_of_mem _ ha2
          exact mem_normalizeRaw ((List.dropWhile_sublist _).subset (hdw ▸ hmem))

lemma count_dot_cleaned (ty : InputType) (maxDec : Nat) (raw : List Char) :
    (sanitizeCleaned ty maxDec raw).count '.' ≤ 1 := by
  cases ty with
  | integer =>
    rw [sanitizeCleaned_integer]
    have : '.' ∉ (normalizeRaw raw).filter (fun c => c != '.') := by
      intro hmem
      have := (List.mem_filter.mp hmem).2
      simp at this
    simp [List.count_eq_zero.mpr this]
  | decimal =>
    rcases split_first_dot (normalizeRaw raw) with ⟨hdw, hnd⟩ | ⟨b, a, _, hb, htw, hdw⟩
    · rw [sanitizeCleaned_decimal_no_dot hdw]
      simp [List.count_eq_zero.mpr hnd]
    · rw [sanitizeCleaned_decimal_dot htw hdw]
      have hbz : (b : List Char).count '.' = 0 := List.count_eq_zero.mpr hb
      have haz : ((a.filter (fun c => c != '.')).take maxDec).count '.' = 0 := by
        refine List.count_eq_zero.mpr fun hmem => ?_
        have := (List.mem_filter.mp ((List.take_sublist _ _).subset hmem)).2
        simp at this
      rw [List.count_append, hbz, List.count_cons, haz]
      simp

lemma frac_len_cleaned (maxDec : Nat) (raw : List Char) :
    (fracPart (sanitizeCleaned InputType.decimal maxDec raw)).length ≤ maxDec := by
  rcases split_first_dot (normalizeRaw raw) with ⟨hdw, hnd⟩ | ⟨b, a, _, hb, htw, hdw⟩
  · rw [sanitizeCleaned_decimal_no_dot hdw]
    unfold fracPart
    rw [hdw]
    simp
  · rw [sanitizeCleaned_decimal_dot htw hdw]
    unfold fracPart
    have hball : ∀ c ∈ b, (fun c => c != '.') c = true := by
      intro c hc
      have : c ≠ '.' := fun e => hb (e ▸ hc)
      simpa using this
    rw [List.dropWhile_append_of_pos hball]
    rw [List.dropWhile_cons_of_neg (by simp)]
    simp [List.length_take_le]

lemma normalizeRaw_append (l1 l2 : List Char) :
    normalizeRaw (l1 ++ l2) = normalizeRaw l1 ++ normalizeRaw l2 := by
  simp [normalizeRaw, List.filter_append]

lemma normalizeRaw_of_kept {l : List Char} (h : ∀ c ∈ l, isKeptChar c = true) :
    normalizeRaw l = l := by
  unfold normalizeRaw
  have hmap : l.map (fun c => if c = ',' then '.' else c) = l := by
    induction l with
    | nil => rfl
    | cons c rest ih =>
      have hc := h c (List.mem_cons_self _ _)
      rw [List.map_cons, if_neg (kept_ne_comma hc),
        ih fun x hx => h x (List.mem_cons_of_mem _ hx)]
  rw [hmap]
  exact List.filter_eq_self.mpr h

/-! ### The display round-trip -/

lemma stripSpaces_fwsAux (l : List Char) :
    stripSpaces (fwsAux l) = stripSpaces l := by
  induction l with
  | nil => rfl
  | cons c rest ih =>
    unfold fwsAux stripSpaces
    rw [List.filter_append]
    unfold stripSpaces at ih
    rw [ih]
    by_cases h : (rest.length + 1) % 3 = 0
    · rw [if_pos h]
      by_cases hc : c = ' ' <;> simp [List.filter_cons, hc]
    · rw [if_neg h]
      by_cases hc : c = ' ' <;> simp [List.filter_cons, hc]

lemma stripSpaces_formatWithSpaces {l : List Char}
    (h : ∀ c ∈ l, (c != ' ') = true) :
    stripSpaces (formatWithSpaces l) = l := by
  cases l with
  | nil => rfl
  | cons c rest =>
    show stripSpaces (c :: fwsAux rest) = c :: rest
    unfold stripSpaces
    rw [List.filter_cons, if_pos (h c (List.mem_cons_self _ _))]
    have : stripSpaces (fwsAux rest) = stripSpaces rest := stripSpaces_fwsAux rest
    unfold stripSpaces at this
    rw [this, List.filter_eq_self.mpr fun x hx => h x (List.mem_cons_of_mem _ hx)]

lemma stripSpaces_formatFromCleaned (ty : InputType) (maxDec : Nat)
    (raw : List Char) :
    stripSpaces (formatFromCleaned (sanitizeCleaned ty maxDec raw)) =
      sanitizeCleaned ty maxDec raw := by
  have hkept := cleaned_kept ty maxDec raw
  by_cases hnil : sanitizeCleaned ty maxDec raw = []
  · rw [hnil]
    rfl
  rcases split_first_dot (sanitizeCleaned ty maxDec raw) with ⟨hdw, _⟩ |
    ⟨b, a, heq, hb, htw, hdw⟩
  · unfold formatFromCleaned
    rw [if_neg hnil, if_pos hdw]
    exact stripSpaces_formatWithSpaces fun c hc => kept_ne_space (hkept c hc)
  · unfold formatFromCleaned
    rw [if_neg hnil, if_neg (by simp [hdw]), htw, hdw]
    unfold stripSpaces
    rw [List.filter_append]
    have hbs : List.filter (fun c => c != ' ') (formatWithSpaces b) = b := by
      refine stripSpaces_formatWithSpaces fun c hc => ?_
      exact kept_ne_space (hkept c (heq ▸ List.mem_append_left _ hc))
    have has : List.filter (fun c => c != ' ') ('.' :: a) = '.' :: a := by
      refine List.filter_eq_self.mpr fun c hc => ?_
      exact kept_ne_space (hkept c (heq ▸ List.mem_append_right _ hc))
    rw [hbs, has, heq]

/-! ### Idempotence of the sanitizer -/

lemma sanitizeCleaned_idem (ty : InputType) (maxDec : Nat) (raw : List Char) :
    sanitizeCleaned ty maxDec (sanitizeCleaned ty maxDec raw) =
      sanitizeCleaned ty maxDec raw := by
  have hkept := cleaned_kept ty maxDec raw
  have hnorm : normalizeRaw (sanitizeCleaned ty maxDec raw) =
      sanitizeCleaned ty maxDec raw := normalizeRaw_of_kept hkept
  cases ty with
  | integer =>
    rw [sanitizeCleaned_integer, hnorm]
    refine List.filter_eq_self.mpr fun c hc => ?_
    rw [sanitizeCleaned_integer] at hc
    exact (List.mem_filter.mp hc).2
  | decimal =>
    rcases split_first_dot (normalizeRaw raw) with ⟨hdw, hnd⟩ | ⟨b, a, heq, hb, htw, hdw⟩
    · have hres := @sanitizeCleaned_decimal_no_dot maxDec raw hdw
      have hdw2 : (normalizeRaw (sanitizeCleaned InputType.decimal maxDec raw)).dropWhile
          (fun c => c != '.') = [] := by
        rw [hnorm, hres, hdw]
      rw [sanitizeCleaned_decimal_no_dot hdw2, hnorm, hres]
    · have hres := @sanitizeCleaned_decimal_dot maxDec raw b a htw hdw
      have hball : ∀ c ∈ b, (fun c => c != '.') c = true := by
        intro c hc
        have : c ≠ '.' := fun e => hb (e ▸ hc)
        simpa using this
      have hAnd : ∀ c ∈ (a.filter (fun c => c != '.')).take maxDec,
          (c != '.') = true := by
        intro c hc
        exact (List.mem_filter.mp ((List.take_sublist _ _).subset hc)).2
      have htw2 : (normalizeRaw (sanitizeCleaned InputType.decimal maxDec raw)).takeWhile
          (fun c => c != '.') = b := by
        rw [hnorm, hres, List.takeWhile_append_of_pos hball,
          List.takeWhile_cons_of_neg (by simp)]
        simp
      have hdw2 : (normalizeRaw (sanitizeCleaned InputType.decimal maxDec raw)).dropWhile
          (fun c => c != '.') =
          '.' :: ((a.filter (fun c => c != '.')).take maxDec) := by
        rw [hnorm, hres, List.dropWhile_append_of_pos hball,
          List.dropWhile_cons_of_neg (by simp)]
      rw [sanitizeCleaned_decimal_dot htw2 hdw2, hres]
      congr 1
      congr 1
      rw [List.filter_eq_self.mpr hAnd]
      exact List.take_of_length_le (List.length_take_le _ _)

/-! ### Facts about the embedded Number parse -/

lemma ratOfParts_nonneg (ip fp : List Char) : 0 ≤ ratOfParts ip fp := by
  rw [ratOfParts, Rat.mkRat_eq_div]
  positivity

lemma jsNumber_not_nan {s : List Char} (hs : s ≠ []) (hdot : s ≠ ['.'])
    (hk : ∀ c ∈ s, isKeptChar c = true) (hcount : s.count '.' ≤ 1) :
    jsNumber s ≠ JSNum.nan := by
  unfold jsNumber
  rw [if_neg hs, if_pos (List.all_eq_true.mpr hk),
    if_neg (by push_neg; exact ⟨by omega, hdot⟩)]
  split
  · simp
  · simp

lemma jsNumber_num_bounds {s : List Char} {q : ℚ}
    (h : jsNumber s = JSNum.num q) : 0 ≤ q ∧ q < DOUBLE_OVERFLOW := by
  have hpos : (0 : ℚ) < DOUBLE_OVERFLOW := by
    rw [DOUBLE_OVERFLOW]
    positivity
  unfold jsNumber at h
  split_ifs at h with h1 h2 h3 h4
  · injection h with h0
    exact ⟨le_of_eq h0, h0 ▸ hpos⟩
  · injection h with h0
    exact ⟨h0 ▸ ratOfParts_nonneg _ _, h0 ▸ h4⟩

lemma jsNumber_digits {d : List Char} (hd : ∀ c ∈ d, c.isDigit = true)
    (hne : d ≠ []) :
    jsNumber d =
      if ratOfParts d [] < DOUBLE_OVERFLOW then JSNum.num (ratOfParts d [])
      else JSNum.inf := by
  have hdall : ∀ c ∈ d, (fun c => c != '.') c = true :=
    fun c hc => digit_ne_dot (hd c hc)
  have hnd : '.' ∉ d := by
    intro hmem
    have := hd '.' hmem
    simp [Char.isDigit] at this
  have htw : d.takeWhile (fun c => c != '.') = d :=
    List.takeWhile_eq_self_iff.mpr hdall
  have hdw : d.dropWhile (fun c => c != '.') = [] :=
    List.dropWhile_eq_nil_iff.mpr hdall
  unfold jsNumber
  rw [if_neg hne, if_pos (List.all_eq_true.mpr fun c hc => digit_kept (hd c hc)),
    if_neg (by
      push_neg
      refine ⟨by rw [List.count_eq_zero.mpr hnd]; omega, fun e => ?_⟩
      exact hnd (e ▸ List.mem_cons_self _ _)), htw, hdw]
  simp

lemma jsNumber_digits_dot {d : List Char} (hd : ∀ c ∈ d, c.isDigit = true)
    (hne : d ≠ []) :
    jsNumber (d ++ ['.']) =
      if ratOfParts d [] < DOUBLE_OVERFLOW then JSNum.num (ratOfParts d [])
      else JSNum.inf := by
  have hdall : ∀ c ∈ d, (fun c => c != '.') c = true :=
    fun c hc => digit_ne_dot (hd c hc)
  have hnd : '.' ∉ d := by
    intro hmem
    have := hd '.' hmem
    simp [Char.isDigit] at this
  have htw : (d ++ ['.']).takeWhile (fun c => c != '.') = d := by
    rw [List.takeWhile_append_of_pos hdall, List.takeWhile_cons_of_neg (by simp)]
    simp
  have hdw : (d ++ ['.']).dropWhile (fun c => c != '.') = ['.'] := by
    rw [List.dropWhile_append_of_pos hdall, List.dropWhile_cons_of_neg (by simp)]
  have hkall : ∀ c ∈ d ++ ['.'], isKeptChar c = true := by
    intro c hc
    rcases List.mem_append.mp hc with hcd | hcd
    · exact digit_kept (hd c hcd)
    · rcases List.mem_singleton.mp hcd with rfl
      rfl
  unfold jsNumber
  rw [if_neg (by simp), if_pos (List.all_eq_true.mpr hkall),
    if_neg (by
      push_neg
      constructor
      · rw [List.count_append, List.count_eq_zero.mpr hnd]
        simp
      · intro e
        rcases d with _ | ⟨c, rest⟩
        · exact hne rfl
        · simp at e), htw, hdw]
  simp

lemma parseDisplay_digits_space {t : List Char}
    (ht : ∀ c ∈ t, c.isDigit = true ∨ c = ' ') :
    parseDisplay (t ++ ['.']) = parseDisplay t := by
  have hfd : ∀ c ∈ t.filter (fun c => c != ' '), c.isDigit = true := by
    intro c hc
    rcases ht c (List.mem_filter.mp hc).1 with h | h
    · exact h
    · have := (List.mem_filter.mp hc).2
      simp [h] at this
  have hmapf : ∀ (l : List Char), (∀ c ∈ l, c.isDigit = true) →
      l.map (fun c => if c = ',' then '.' else c) = l := by
    intro l hl
    induction l with
    | nil => rfl
    | cons c rest ih =>
      have hc := hl c (List.mem_cons_self _ _)
      have hcne : c ≠ ',' := by
        intro e
        rw [e] at hc
        simp [Char.isDigit] at hc
      rw [List.map_cons, if_neg hcne, ih fun x hx => hl x (List.mem_cons_of_mem _ hx)]
  unfold parseDisplay
  rw [List.filter_append, List.map_append]
  rw [hmapf _ hfd]
  have hdotf : List.filter (fun c => c != ' ') ['.'] = ['.'] := by simp
  rw [hdotf]
  have hdotm : List.map (fun c => if c = ',' then '.' else c) ['.'] = ['.'] := by simp
  rw [hdotm]
  rcases eq_or_ne (t.filter (fun c => c != ' ')) [] with hnil | hne
  · rw [hnil]
    simp
  · rw [if_neg, if_neg]
    · rw [jsNumber_digits hfd hne, jsNumber_digits_dot hfd hne]
    · push_neg
      refine ⟨hne, fun e => ?_⟩
      have := hfd '.' (e ▸ List.mem_cons_self _ _)
      simp [Char.isDigit] at this
    · push_neg
      refine ⟨by simp, fun e => ?_⟩
      have h2 := congrArg List.length e
      rw [List.length_append] at h2
      simp only [List.length_cons, List.length_nil] at h2
      exact hne (List.length_eq_zero.mp (by omega))

/-! ### Counting characters for the caret computation -/

lemma length_filter_ne_space (l : List Char) :
    (l.filter (fun c => c != ' ')).length = l.length - l.count ' ' := by
  induction l with
  | nil => rfl
  | cons c rest ih =>
    have hcount := List.count_le_length ' ' rest
    by_cases hc : c = ' '
    · subst hc
      rw [List.filter_cons, if_neg (by simp), List.count_cons]
      simp only [List.length_cons, beq_self_eq_true, if_pos]
      omega
    · rw [List.filter_cons, if_pos (by simp [hc]), List.count_cons]
      simp only [List.length_cons, beq_iff_eq]
      rw [if_neg hc]
      omega

/-! ### Claim C1 -/

/-- Claim C1, counterexample: the empty raw input is an accepted edit (no
limit is configured, so the limit check returns false), yet its
numericValue is null while Number of the empty cleaned string is 0, so the
claimed strict equality between numericValue and Number(cleanedString)
fails when the cleaned string is empty. -/
theorem C1_counterexample :
    checkLimit
      { type := InputType.decimal, disabled := false, max := none,
        maxLength := none, maxDecimals := 2 }
      (sanitize InputType.decimal 2 []).cleaned
      (sanitize InputType.decimal 2 []).numericValue = false ∧
    (sanitize InputType.decimal 2 []).numericValue = none ∧
    jsNumber (sanitize InputType.decimal 2 []).cleaned = JSNum.num 0 ∧
    numEqJS (sanitize InputType.decimal 2 []).numericValue
      (jsNumber (sanitize InputType.decimal 2 []).cleaned) = false := by
  decide

/-- Claim C1, amended: for every accepted edit, numericValue strictly
equals Number(cleanedString) whenever the cleaned string is nonempty, not a
lone dot, and its parse is finite; when the cleaned string is empty or a
lone dot numericValue is null (even though Number would give 0 resp. NaN
there), and when the parse overflows to Infinity numericValue is null. -/
theorem C1_accepted_value_is_parse (p : Props) (raw : List Char)
    (hacc : checkLimit p (sanitize p.type p.maxDecimals raw).cleaned
      (sanitize p.type p.maxDecimals raw).numericValue = false) :
    ((sanitize p.type p.maxDecimals raw).cleaned = [] ∨
        (sanitize p.type p.maxDecimals raw).cleaned = ['.'] →
      (sanitize p.type p.maxDecimals raw).numericValue = none) ∧
    (jsNumber (sanitize p.type p.maxDecimals raw).cleaned = JSNum.inf →
      (sanitize p.type p.maxDecimals raw).numericValue = none) ∧
    ((sanitize p.type p.maxDecimals raw).cleaned ≠ [] →
      (sanitize p.type p.maxDecimals raw).cleaned ≠ ['.'] →
      jsNumber (sanitize p.type p.maxDecimals raw).cleaned ≠ JSNum.inf →
      numEqJS (sanitize p.type p.maxDecimals raw).numericValue
        (jsNumber (sanitize p.type p.maxDecimals raw).cleaned) = true) := by
  refine ⟨?_, ?_, ?_⟩
  · intro h
    show numFromCleaned (sanitizeCleaned p.type p.maxDecimals raw) = none
    rcases h with h | h <;>
      · have h2 : sanitizeCleaned p.type p.maxDecimals raw = _ := h
        simp [numFromCleaned, h2]
  · intro hinf
    have hinf2 : jsNumber (sanitizeCleaned p.type p.maxDecimals raw) = JSNum.inf := hinf
    show numFromCleaned (sanitizeCleaned p.type p.maxDecimals raw) = none
    by_cases hg : sanitizeCleaned p.type p.maxDecimals raw ≠ [] ∧
        sanitizeCleaned p.type p.maxDecimals raw ≠ ['.']
    · simp [numFromCleaned, hg, hinf2]
    · simp [numFromCleaned, hg]
  · intro h1 h2 h3
    have h1b : sanitizeCleaned p.type p.maxDecimals raw ≠ [] := h1
    have h2b : sanitizeCleaned p.type p.maxDecimals raw ≠ ['.'] := h2
    have hnan := jsNumber_not_nan h1b h2b
      (cleaned_kept p.type p.maxDecimals raw)
      (count_dot_cleaned p.type p.maxDecimals raw)
    show numEqJS (numFromCleaned (sanitizeCleaned p.type p.maxDecimals raw))
      (jsNumber (sanitizeCleaned p.type p.maxDecimals raw)) = true
    cases hjs : jsNumber (sanitizeCleaned p.type p.maxDecimals raw) with
    | nan => exact absurd hjs hnan
    | inf => exact absurd hjs h3
    | num q => simp [numFromCleaned, h1b, h2b, hjs, numEqJS]

/-- Claim C1, witness: the amended statement applied to the raw input 42
with no limit configured. -/
theorem C1_witness :
    numEqJS (sanitize InputType.decimal 2 ['4', '2']).numericValue
      (jsNumber (sanitize InputType.decimal 2 ['4', '2']).cleaned) = true :=
  (C1_accepted_value_is_parse
    { type := InputType.decimal, disabled := false, max := none,
      maxLength := none, maxDecimals := 2 } ['4', '2'] (by decide)).2.2
    (by decide) (by decide) (by decide)

/-! ### Claim C2 -/

/-- Claim C2 (confirmed): for every cleaned string that sanitize can
produce (under any input type and maxDecimals), stripping the grouping
spaces from the display computed by formatFromCleaned yields the cleaned
string back, including when it ends in a bare dot. -/
theorem C2_display_round_trip (ty : InputType) (maxDec : Nat)
    (raw : List Char) :
    stripSpaces (formatFromCleaned (sanitize ty maxDec raw).cleaned) =
      (sanitize ty maxDec raw).cleaned :=
  stripSpaces_formatFromCleaned ty maxDec raw

/-! ### Claim C3 -/

/-- Claim C3 (confirmed): when the sanitized result of an input event
violates the configured limit (and the widget is not disabled), the edit is
rejected atomically — the stored display is unchanged, the field text is
rolled back to that display, the error flag is raised, and no
update-model event is emitted (and no caret repositioning is scheduled). -/
theorem C3_reject_is_atomic (p : Props) (st : FieldState)
    (inputValue : List Char) (cursorPos : Nat)
    (hdis : p.disabled = false)
    (hviol : checkLimit p (sanitize p.type p.maxDecimals inputValue).cleaned
      (sanitize p.type p.maxDecimals inputValue).numericValue = true) :
    onInput p st inputValue cursorPos =
      { displayValue := st.displayValue, hasError := true,
        emittedModel := none, fieldText := st.displayValue, cursor := none } := by
  unfold onInput
  rw [hdis]
  dsimp only
  rw [if_neg (by simp), if_pos hviol]

/-- Claim C3, witness: with max 100 configured, typing 150 over a stored
display of 99 is rejected with no emission and the display kept. -/
theorem C3_witness :
    onInput
      { type := InputType.decimal, disabled := false, max := some 100,
        maxLength := none, maxDecimals := 2 }
      { displayValue := ['9', '9'], hasError := false, isFocused := true }
      ['1', '5', '0'] 3 =
      { displayValue := ['9', '9'], hasError := true, emittedModel := none,
        fieldText := ['9', '9'], cursor := none } :=
  C3_reject_is_atomic _ _ _ _ rfl (by decide)

/-! ### Claim C4 -/

/-- Claim C4 (confirmed): checkLimit computes exactly the exceedance
predicate the spec describes over the LimitSpec selected from the
configuration — for max, value non-null and strictly above the max; for
maxLength, digit count of the cleaned string strictly above the maximum;
never when no limit is configured. -/
theorem C4_checkLimit_matches_spec (p : Props) (cleaned : List Char)
    (nv : Option ℚ) :
    checkLimit p cleaned nv = exceeds cleaned nv (limitSpecOf p) := by
  rcases p with ⟨ty, dis, mx, ml, md⟩
  cases mx <;> cases ml <;> cases nv <;>
    simp [checkLimit, limitType, limitSpecOf, exceeds]

/-! ### Claim C5 -/

/-- Claim C5 (confirmed): for decimal inputs the cleaned string contains at
most one dot, its fractional part has at most maxDecimals digits, and when
the cleaned string already contains a dot, appending a further dot to the
raw input leaves the whole sanitize result unchanged. -/
theorem C5_decimal_dot_handling (maxDec : Nat) (raw : List Char) :
    (sanitize InputType.decimal maxDec raw).cleaned.count '.' ≤ 1 ∧
    (fracPart (sanitize InputType.decimal maxDec raw).cleaned).length ≤ maxDec ∧
    ('.' ∈ (sanitize InputType.decimal maxDec raw).cleaned →
      sanitize InputType.decimal maxDec (raw ++ ['.']) =
        sanitize InputType.decimal maxDec raw) := by
  refine ⟨?_, ?_, fun hdot => ?_⟩
  · show (sanitizeCleaned InputType.decimal maxDec raw).count '.' ≤ 1
    exact count_dot_cleaned InputType.decimal maxDec raw
  · show (fracPart (sanitizeCleaned InputType.decimal maxDec raw)).length ≤ maxDec
    exact frac_len_cleaned maxDec raw
  have hdot2 : '.' ∈ sanitizeCleaned InputType.decimal maxDec raw := hdot
  rcases split_first_dot (normalizeRaw raw) with ⟨hdw, hnd⟩ | ⟨b, a, heq, hb, htw, hdw⟩
  · rw [sanitizeCleaned_decimal_no_dot hdw] at hdot2
    exact absurd hdot2 hnd
  · have hball : ∀ c ∈ b, (fun c => c != '.') c = true := by
      intro c hc
      have : c ≠ '.' := fun e => hb (e ▸ hc)
      simpa using this
    have hbase : normalizeRaw (raw ++ ['.']) = b ++ '.' :: (a ++ ['.']) := by
      rw [normalizeRaw_append, heq]
      have : normalizeRaw ['.'] = ['.'] := by decide
      rw [this]
      simp
    have htw2 : (normalizeRaw (raw ++ ['.'])).takeWhile (fun c => c != '.') = b := by
      rw [hbase, List.takeWhile_append_of_pos hball,
        List.takeWhile_cons_of_neg (by simp)]
      simp
    have hdw2 : (normalizeRaw (raw ++ ['.'])).dropWhile (fun c => c != '.') =
        '.' :: (a ++ ['.']) := by
      rw [hbase, List.dropWhile_append_of_pos hball,
        List.dropWhile_cons_of_neg (by simp)]
    have hcl : sanitizeCleaned InputType.decimal maxDec (raw ++ ['.']) =
        sanitizeCleaned InputType.decimal maxDec raw := by
      rw [sanitizeCleaned_decimal_dot htw2 hdw2,
        sanitizeCleaned_decimal_dot htw hdw]
      rw [List.filter_append]
      have : List.filter (fun c => c != '.') ['.'] = [] := by decide
      rw [this, List.append_nil]
    unfold sanitize
    rw [hcl]

/-- Claim C5, witness: appending a dot to the raw input 1.5 leaves the
sanitize result unchanged. -/
theorem C5_witness :
    sanitize InputType.decimal 2 ['1', '.', '5', '.'] =
      sanitize InputType.decimal 2 ['1', '.', '5'] :=
  (C5_decimal_dot_handling 2 ['1', '.', '5']).2.2 (by decide)

/-! ### Claim C6 -/

/-- Claim C6, counterexample: with old display 1 (length 1), old caret
offset 2 (the caret sits in the longer new text) and new display 12, the
implemented computation yields 2 but the algorithm as the spec words it
(count non-space characters of the old display up to the offset) yields 1,
so the two computations are not equal in general. -/
theorem C6_counterexample :
    codeNewCursor ['1'] 2 ['1', '2'] ≠ specNewCursor ['1'] 2 ['1', '2'] := by
  decide

/-- Claim C6, amended: the implemented caret computation agrees with the
algorithm the spec describes whenever the old caret offset does not exceed
the length of the old display string (the offset is measured in the new
text, so it can exceed that length; there the two differ). -/
theorem C6_caret_matches_spec (oldDisplay : List Char) (oldOffset : Nat)
    (newDisplay : List Char) (h : oldOffset ≤ oldDisplay.length) :
    codeNewCursor oldDisplay oldOffset newDisplay =
      specNewCursor oldDisplay oldOffset newDisplay := by
  unfold codeNewCursor specNewCursor
  congr 1
  have hlen : (oldDisplay.take oldOffset).length = oldOffset := by
    rw [List.length_take]
    exact min_eq_left h
  rw [length_filter_ne_space, hlen]

/-- Claim C6, witness: the amended statement at old display 1234, offset 2,
new display 1 234 (both computations give 3). -/
theorem C6_witness :
    codeNewCursor ['1', '2', '3', '4'] 2 ['1', ' ', '2', '3', '4'] =
      specNewCursor ['1', '2', '3', '4'] 2 ['1', ' ', '2', '3', '4'] :=
  C6_caret_matches_spec ['1', '2', '3', '4'] 2 ['1', ' ', '2', '3', '4']
    (by decide)

/-! ### Claim C7 -/

/-- Claim C7, counterexample: with old display 1234, old caret offset 2 and
new display 1 234, the caret computation does not yield offset 2. -/
theorem C7_counterexample :
    codeNewCursor ['1', '2', '3', '4'] 2 ['1', ' ', '2', '3', '4'] ≠ 2 := by
  decide

/-- Claim C7, amended: in that concrete case the caret computation places
the new caret at offset 3 — immediately after the inserted space and after
the same 2nd digit, not before the space. -/
theorem C7_caret_lands_after_space :
    codeNewCursor ['1', '2', '3', '4'] 2 ['1', ' ', '2', '3', '4'] = 3 := by
  decide

/-! ### Claim C8 -/

/-- Claim C8 (confirmed): onBlur clears the error flag, never emits an
update-model event, strips exactly one trailing dot from the display when
one is present, and — on the digit/space/dot displays with at most one dot
that the widget shows — stripping that dot does not change the parsed
value. -/
theorem C8_blur_strips_trailing_dot (st : FieldState) :
    (onBlur st).hasError = false ∧
    (onBlur st).emittedModel = none ∧
    (st.displayValue.getLast? = some '.' →
      (onBlur st).displayValue = st.displayValue.dropLast) ∧
    ((∀ c ∈ st.displayValue, c.isDigit = true ∨ c = ' ' ∨ c = '.') →
      st.displayValue.count '.' ≤ 1 →
      parseDisplay (onBlur st).displayValue = parseDisplay st.displayValue) := by
  refine ⟨rfl, rfl, fun hend => ?_, fun hchars hcount => ?_⟩
  · unfold onBlur
    dsimp only
    rw [if_pos hend]
  · by_cases hend : st.displayValue.getLast? = some '.'
    · have hne : st.displayValue ≠ [] := by
        intro e
        rw [e] at hend
        simp at hend
      have hsplit : st.displayValue.dropLast ++ ['.'] = st.displayValue := by
        have hlast : st.displayValue.getLast hne = '.' := by
          have h5 := List.getLast?_eq_getLast st.displayValue hne
          rw [hend] at h5
          exact (Option.some.inj h5).symm
        rw [← hlast]
        exact List.dropLast_concat_getLast hne
      have htc : ∀ c ∈ st.displayValue.dropLast, c.isDigit = true ∨ c = ' ' := by
        intro c hc
        have hmem : c ∈ st.displayValue := (List.dropLast_sublist _).subset hc
        rcases hchars c hmem with h | h | h
        · exact Or.inl h
        · exact Or.inr h
        · exfalso
          have hcnt : (st.displayValue.dropLast ++ ['.']).count '.' ≤ 1 := by
            rw [hsplit]
            exact hcount
          rw [List.count_append] at hcnt
          have h1 : (1 : Nat) ≤ st.displayValue.dropLast.count '.' :=
            List.one_le_count_iff.mpr (h ▸ hc)
          simp at hcnt
          omega
      have hdisp : (onBlur st).displayValue = st.displayValue.dropLast := by
        unfold onBlur
        dsimp only
        rw [if_pos hend]
      rw [hdisp]
      conv_rhs => rw [← hsplit]
      exact (parseDisplay_digits_space htc).symm
    · have hdisp : (onBlur st).displayValue = st.displayValue := by
        unfold onBlur
        dsimp only
        rw [if_neg hend]
      rw [hdisp]

/-- Claim C8, witness: blurring while the display reads 42. yields display
42, no emission, and the same parsed value 42. -/
theorem C8_witness :
    (onBlur
      { displayValue := ['4', '2', '.'], hasError := true,
        isFocused := true }).displayValue = ['4', '2'] ∧
    (onBlur
      { displayValue := ['4', '2', '.'], hasError := true,
        isFocused := true }).emittedModel = none ∧
    parseDisplay (onBlur
      { displayValue := ['4', '2', '.'], hasError := true,
        isFocused := true }).displayValue = parseDisplay ['4', '2', '.'] := by
  obtain ⟨h1, h2, h3, h4⟩ := C8_blur_strips_trailing_dot
    { displayValue := ['4', '2', '.'], hasError := true, isFocused := true }
  refine ⟨?_, h2, h4 (by decide) (by decide)⟩
  rw [h3 (by decide)]
  decide

/-! ### Claim C9 -/

/-- Claim C9 (confirmed): whatever the raw input, input type and
maxDecimals, a non-null numericValue produced by sanitize is a non-negative
finite value — non-negative and strictly below the double overflow
threshold (overlong digit strings whose parse would be Infinity produce
null instead). -/
theorem C9_value_nonneg_finite (ty : InputType) (maxDec : Nat)
    (raw : List Char) (q : ℚ)
    (h : (sanitize ty maxDec raw).numericValue = some q) :
    0 ≤ q ∧ q < DOUBLE_OVERFLOW := by
  have h2 : numFromCleaned (sanitizeCleaned ty maxDec raw) = some q := h
  unfold numFromCleaned at h2
  by_cases hg : sanitizeCleaned ty maxDec raw ≠ [] ∧
      sanitizeCleaned ty maxDec raw ≠ ['.']
  · rw [if_pos hg] at h2
    cases hjs : jsNumber (sanitizeCleaned ty maxDec raw) with
    | nan => rw [hjs] at h2; exact absurd h2 (by simp)
    | inf => rw [hjs] at h2; exact absurd h2 (by simp)
    | num p =>
      rw [hjs] at h2
      have hpq : p = q := by
        injection h2
      exact hpq ▸ jsNumber_num_bounds hjs
  · rw [if_neg hg] at h2
    exact absurd h2 (by simp)

/-- Claim C9, witness: the raw input 42 yields the value 42, which the
theorem shows to be non-negative and below the overflow threshold. -/
theorem C9_witness : (0 : ℚ) ≤ 42 ∧ (42 : ℚ) < DOUBLE_OVERFLOW :=
  C9_value_nonneg_finite InputType.decimal 2 ['4', '2'] 42 (by decide)

/-! ### Claim C10 -/

/-- Claim C10 (confirmed): sanitize is idempotent — feeding the cleaned
string back in (with the same type and maxDecimals) reproduces the same
cleaned string and the same numericValue. -/
theorem C10_sanitize_idempotent (ty : InputType) (maxDec : Nat)
    (raw : List Char) :
    sanitize ty maxDec ((sanitize ty maxDec raw).cleaned) =
      sanitize ty maxDec raw := by
  have h := sanitizeCleaned_idem ty maxDec raw
  unfold sanitize
  dsimp only
  rw [show sanitizeCleaned ty maxDec (sanitizeCleaned ty maxDec raw) =
    sanitizeCleaned ty maxDec raw from h]

end NumericInput
